import Mathlib

/-!
Verification development for the retail-assistant pipeline of
`03-creating-llm-functions.ipynb` (util/imagehelpers.py, util/pickimg.py,
util/getasinlist.py, util/refinequery.py, util/getinfo.py).

The Python functions are shallowly embedded.  External collaborators are
abstracted as parameters:
* image availability (network fetch + decode success) is a boolean oracle
  `fetch : String → Bool` over URLs, assumed stable within one reasoning
  context (the same URL succeeds or fails consistently);
* the language-model completion is represented by its response text,
  passed in as a `String` argument.

Python exceptions are modelled with `Except Unit`; Python `None` with
`Option.none`.
-/

namespace RetailAssistant

/-! ### Python primitives used by the source -/

/-- Python `s.split(sep)` for a single-character separator, on the character
list of the string.  `[].split` yields one empty piece, matching Python's
`"".split('/') == ['']`; adjacent separators yield empty pieces. -/
def pySplit (sep : Char) : List Char → List (List Char)
  | [] => [[]]
  | c :: rest =>
      let r := pySplit sep rest
      if c == sep then [] :: r
      else (c :: r.headD []) :: r.tail

/-- Python sequence indexing `l[i]` with negative-index wrap-around:
`l[i]` is `l[i + len(l)]` for `-len(l) ≤ i < 0`, and an `IndexError`
(modelled as `Except.error`) outside `[-len(l), len(l))`. -/
def pyIndex (l : List String) (i : Int) : Except Unit String :=
  if 0 ≤ i then
    if h : i.toNat < l.length then .ok (l.get ⟨i.toNat, h⟩) else .error ()
  else
    if h : 0 ≤ i + l.length ∧ (i + l.length).toNat < l.length then
      .ok (l.get ⟨(i + l.length).toNat, h.2⟩)
    else .error ()

/-- Python `s.strip('[]')`: drop every leading and trailing `[` or `]`. -/
def stripSquare (s : String) : String :=
  let isB : Char → Bool := fun c => c = '[' ∨ c = ']'
  String.mk ((((s.data.dropWhile isB).reverse.dropWhile isB).reverse))

/-- A Python whitespace character, as stripped by `str.strip()` and
skipped around literals by `ast.literal_eval`. -/
def isPySpace (c : Char) : Bool :=
  c = ' ' ∨ c = '\t' ∨ c = '\n' ∨ c = '\r' ∨ c = '\x0b' ∨ c = '\x0c'

/-- Python `s.strip()`: drop leading and trailing whitespace. -/
def stripWs (l : List Char) : List Char :=
  ((l.dropWhile isPySpace).reverse.dropWhile isPySpace).reverse

/-- Decimal digits of a character list folded to a `Nat`. -/
def digitsToNat (l : List Char) : Nat :=
  l.foldl (fun acc c => 10 * acc + (c.toNat - '0'.toNat)) 0

/-- Python `ast.literal_eval` restricted to decimal integer literals with an
optional sign and surrounding whitespace — the shapes this pipeline's
bracketed-index protocol produces.  Any response whose literal form is
outside this grammar is modelled as a parse failure; in the source a parse
failure and a successfully parsed non-integer literal both fall through to
the same `None` branch of `pick_img`, so the collapse is behaviour
preserving there. -/
def literalEvalInt (s : String) : Option Int :=
  match stripWs s.data with
  | [] => none
  | '-' :: ds => if ds ≠ [] ∧ ds.all Char.isDigit then some (-(digitsToNat ds : Int)) else none
  | '+' :: ds => if ds ≠ [] ∧ ds.all Char.isDigit then some ((digitsToNat ds : Int)) else none
  | ds => if ds.all Char.isDigit then some ((digitsToNat ds : Int)) else none

/-! ### util/imagehelpers.py -/

/-- The accumulator loop of `filter_image_url`: `images = []`, then
`for url in img_list: try: Image.open(requests.get(url).raw); images.append(url)
except: pass`.  A failed fetch/decode is skipped, never aborting the loop. -/
def filterLoop (fetch : String → Bool) : List String → List String → List String
  | images, [] => images
  | images, url :: rest =>
      if fetch url then filterLoop fetch (images ++ [url]) rest
      else filterLoop fetch images rest

/-- Embedding of `filter_image_url(img_list)` from util/imagehelpers.py: keep the URLs
whose fetch-and-decode succeeds; `None` when none survive. -/
def filter_image_url (fetch : String → Bool) (img_list : List String) :
    Option (List String) :=
  let images := filterLoop fetch [] img_list
  if images.length = 0 then none else some images

/-! ### util/pickimg.py -/

/-- Embedding of `pick_img(text_input, img_list)` from util/pickimg.py, with the
language-model call abstracted as its `response` text.  The source filters
`img_list`, returns `None` when nothing survives, otherwise parses
`response.strip('[]')` with `ast.literal_eval` and returns
`img_list[answer-1]` when `isinstance(answer, int) and answer < len(img_list)`,
else `None`.  `text_input` only feeds the model call, so it does not appear
here. -/
def pick_img (fetch : String → Bool) (response : String)
    (img_list : List String) : Except Unit (Option String) :=
  match filter_image_url fetch img_list with
  | none => .ok none
  | some l =>
      match literalEvalInt (stripSquare response) with
      | some answer =>
          if answer < (l.length : Int) then (pyIndex l (answer - 1)).map some
          else .ok none
      | none => .ok none

/-! ### util/getasinlist.py -/

/-- The `s3Location` object of a Bedrock retrieval result. -/
structure S3Location where
  uri : String
deriving DecidableEq, Repr

/-- The `location` object of a Bedrock retrieval result. -/
structure ResultLocation where
  s3Location : S3Location
deriving DecidableEq, Repr

/-- One Bedrock knowledge-base retrieval result, as read by the source:
only `['location']['s3Location']['uri']` is accessed. -/
structure RetrievalResult where
  location : ResultLocation
deriving DecidableEq, Repr

/-- Embedding of
`search_item['location']['s3Location']['uri'].split('/')[-1].split('.')[0]`:
last path component, then the piece before the first dot. -/
def asinOfUri (uri : String) : String :=
  String.mk ((pySplit '.' ((pySplit '/' uri.data).getLastD [])).headD [])

/-- The runtime type shapes `get_asin_list` can receive (`type(search_list)`
is inspected against `list` and `str`; a single result object is a dict). -/
inductive SearchInput where
  | absent
  | single (r : RetrievalResult)
  | ofString (s : String)
  | ofList (rs : List RetrievalResult)
deriving DecidableEq, Repr

/-- Embedding of `get_asin_list(search_list)` from util/getasinlist.py.
The `list` branch maps every element to its URI-derived identifier; the
`str` branch subscripts the string with `['location']` and so raises a
`TypeError` (`.error`); every other shape — `None` or a single result
dict — hits the final `else` and returns `None`. -/
def get_asin_list : SearchInput → Except Unit (Option (List String))
  | .ofList rs => .ok (some (rs.map (fun r => asinOfUri r.location.s3Location.uri)))
  | .ofString _ => .error ()
  | .single _ => .ok none
  | .absent => .ok none

/-! ### util/refinequery.py -/

/-- The scanner for `re.sub(re.compile('<.*?>'), '', text)`.  The state is
`none` outside any candidate tag and `some buf` after an unclosed `<`,
where `buf` holds the scanned tag interior in reverse.  A `>` closes the
non-greedy match and the whole span is dropped; a newline cannot be
matched by `.`, so it flushes the span literally (no candidate inside the
flushed span can match either, since the same newline blocks it); the end
of input flushes likewise. -/
def stripTagsGo : Option (List Char) → List Char → List Char
  | none, [] => []
  | none, c :: rest =>
      if c = '<' then stripTagsGo (some []) rest
      else c :: stripTagsGo none rest
  | some buf, [] => '<' :: buf.reverse
  | some buf, c :: rest =>
      if c = '>' then stripTagsGo none rest
      else if c = '\n' then ('<' :: buf.reverse) ++ '\n' :: stripTagsGo none rest
      else stripTagsGo (some (c :: buf)) rest

/-- Embedding of `re.sub(re.compile('<.*?>'), '', text)` on the character list: each
non-greedy `<...>` span (no newline inside) is removed; an unmatched `<`
is kept, as the regex engine does. -/
def stripTags (l : List Char) : List Char :=
  stripTagsGo none l

/-- The scanner for Python `s.replace(pat, '')` with a non-empty literal
pattern: the `Nat` state counts characters of a matched occurrence still
to be consumed.  At a position where `pat` is a prefix, the occurrence is
dropped (leftmost, non-overlapping); otherwise the character is kept. -/
def eraseSubGo (pat : List Char) : Nat → List Char → List Char
  | _, [] => []
  | n + 1, _ :: rest => eraseSubGo pat n rest
  | 0, c :: rest =>
      if pat.isPrefixOf (c :: rest) then eraseSubGo pat (pat.length - 1) rest
      else c :: eraseSubGo pat 0 rest

/-- Embedding of Python `s.replace(pat, '')` for a literal pattern: delete every
leftmost, non-overlapping occurrence of `pat` (identity for the empty
pattern, which the source never uses). -/
def eraseSub (pat : List Char) (l : List Char) : List Char :=
  if pat.isEmpty then l else eraseSubGo pat 0 l

/-- Embedding of `clean_text(text)` from util/refinequery.py: strip `<.*?>` tags, then
`str.replace` of the *literal* substring `/[^a-zA-Z0-9 ]` (the source
passes a raw string to `str.replace`, which does plain substring
replacement, not a regex), then `strip()`. -/
def clean_text (text : String) : String :=
  String.mk (stripWs (eraseSub "/[^a-zA-Z0-9 ]".data (stripTags text.data)))

/-- The `product` argument of `refine_query`: a dict with keys
`asin`, `title`, `image`. -/
structure Product where
  asin : String
  title : String
  image : String
deriving DecidableEq, Repr

/-- One content block of the assembled language-model request. -/
inductive ContentBlock where
  | text (value : String)
  | image (base64Data : String)
deriving DecidableEq, Repr

/-- Python truthiness of the `query_history` argument: `None` and `[]`
are falsy. -/
def historyTruthy : Option (List String) → Bool
  | none => false
  | some h => !h.isEmpty

/-- The `content` list assembled by `refine_query` before the model call:
the current query text block; if `query_history` is truthy, one past-query
block per history entry with the loop breaking after index 3 (at most 4
entries); if `product` is truthy, its title block and its fetched image
block.  The image payload is abstracted by the URL it was fetched from. -/
def refineContent (input_text : String) (query_history : Option (List String))
    (product : Option Product) : List ContentBlock :=
  let base := [ContentBlock.text ("CURRENT USER QUERY: " ++ input_text)]
  let withHist :=
    if historyTruthy query_history then
      base ++ ((query_history.getD []).take 4).map
        (fun q => ContentBlock.text ("PAST USER QUERY: " ++ q))
    else base
  match product with
  | some p => withHist ++ [ContentBlock.text ("IMAGE title: " ++ p.title),
                           ContentBlock.image p.image]
  | none => withHist

/-- The `query_list` computation at the end of `refine_query`:
`[output_query] + query_history` truncated by `[:3]` when the history is
truthy, else the singleton `[output_query]`. -/
def refineHistoryUpdate (output_query : String)
    (query_history : Option (List String)) : List String :=
  if historyTruthy query_history then
    (output_query :: query_history.getD []).take 3
  else [output_query]

/-- Embedding of `refine_query(input_text, query_history, product)` from
util/refinequery.py, with the model call abstracted as its raw `llmResponse`
text.  When a product is supplied, its image is fetched
(`url_image_processing(img)`); a failed fetch raises (`.error`), it is not
substituted.  The cleaned response is returned together with the updated
history, `refineHistoryUpdate`. -/
def refine_query (fetch : String → Bool) (llmResponse : String)
    (input_text : String) (query_history : Option (List String))
    (product : Option Product) : Except Unit (String × List String) :=
  match product with
  | some p =>
      if fetch p.image then
        .ok (clean_text llmResponse, refineHistoryUpdate (clean_text llmResponse) query_history)
      else .error ()
  | none =>
      .ok (clean_text llmResponse, refineHistoryUpdate (clean_text llmResponse) query_history)

/-! ### util/getinfo.py -/

/-- A Python word character for `re.sub(r'\W+', '', asin)`, over the ASCII
alphabet the identifiers use: alphanumeric or underscore. -/
def isWordChar (c : Char) : Bool :=
  c.isAlphanum || c = '_'

/-- Embedding of `re.sub(r'\W+', '', ...)`: every maximal run of non-word characters is
replaced by the empty string; with an empty replacement this deletes each
non-word character, one at a time. -/
def subNonWordRuns : List Char → List Char
  | [] => []
  | c :: rest =>
      if isWordChar c then c :: subNonWordRuns rest
      else subNonWordRuns rest

/-- The identifier sanitisation at the top of `get_info_from_db`:
`asin = re.sub(r'\W+', '', asin)`. -/
def sanitizeAsin (s : String) : String :=
  String.mk (subNonWordRuns s.data)

/-! ### A store model for the history-update steps of `refine_query`

Python lists are heap references; to state that `refine_query` never
mutates the caller's `query_history` list we model the two list
operations the source performs on it — `[output_query] + query_history`
and `query_list[:3]` — on an explicit address-indexed store.  Both
operations allocate fresh lists. -/

/-- A store of Python list objects: addresses below `next` are allocated. -/
structure ListStore where
  next : Nat
  heap : Nat → List String

/-- Allocate a fresh list object. -/
def ListStore.alloc (σ : ListStore) (v : List String) : ListStore × Nat :=
  (⟨σ.next + 1, fun a => if a = σ.next then v else σ.heap a⟩, σ.next)

/-- Python `[output_query] + query_history`: list concatenation reads both
operands and allocates a new list. -/
def ListStore.concatNew (σ : ListStore) (v : List String) (a : Nat) :
    ListStore × Nat :=
  σ.alloc (v ++ σ.heap a)

/-- Python `query_list[:3]`: slicing reads the operand and allocates a new list. -/
def ListStore.slice3 (σ : ListStore) (a : Nat) : ListStore × Nat :=
  σ.alloc ((σ.heap a).take 3)

/-- The history-update tail of `refine_query` on the store: with a truthy
history at address `a`, build `[q] + heap(a)` then slice to 3; with a falsy
history, allocate the singleton `[q]`.  The input list at `a` is only read. -/
def updateHistoryStore (σ : ListStore) (q : String) (a : Nat) :
    ListStore × Nat :=
  if (σ.heap a).isEmpty then σ.alloc [q]
  else
    let s1 := σ.concatNew [q] a
    s1.1.slice3 s1.2

/-! ## Supporting lemmas -/

theorem filterLoop_eq (fetch : String → Bool) :
    ∀ (l acc : List String), filterLoop fetch acc l = acc ++ l.filter fetch := by
  intro l
  induction l with
  | nil => intro acc; simp [filterLoop]
  | cons url rest ih =>
      intro acc
      by_cases h : fetch url
      · simp [filterLoop, h, List.filter_cons, ih]
      · simp [filterLoop, h, List.filter_cons, ih]

theorem filter_image_url_eq (fetch : String → Bool) (l : List String) :
    filter_image_url fetch l =
      if l.filter fetch = [] then none else some (l.filter fetch) := by
  unfold filter_image_url
  rw [filterLoop_eq]
  simp [List.length_eq_zero]

theorem pyIndex_mem (l : List String) (i : Int) (u : String)
    (h : pyIndex l i = .ok u) : u ∈ l := by
  unfold pyIndex at h
  split at h
  · split at h
    · cases h
      exact List.get_mem _ _ _
    · exact absurd h (by simp)
  · split at h
    · cases h
      exact List.get_mem _ _ _
    · exact absurd h (by simp)

theorem pyIndex_neg_one (l : List String) (h : l ≠ []) :
    pyIndex l (-1) = .ok (l.getLast h) := by
  unfold pyIndex
  have hlen : 0 < l.length := List.length_pos.mpr h
  rw [if_neg (by omega)]
  have hcond : (0 : Int) ≤ -1 + l.length ∧ ((-1 : Int) + l.length).toNat < l.length := by
    constructor <;> omega
  rw [dif_pos hcond]
  have hidx : ((-1 : Int) + l.length).toNat = l.length - 1 := by omega
  congr 1
  rw [List.getLast_eq_get]
  congr 1
  exact Fin.ext hidx

/-! ## Claims about `filter_image_url` -/

/-- C6: `filter_image_url` returns exactly the subsequence of input URLs
whose fetch-and-decode succeeds, in original relative order (the
order-preserving `List.filter` of the availability oracle); a failing URL
is skipped without aborting the pass (the function is total); when no URL
survives the result is `none`, not an error. -/
theorem filter_image_url_is_filter (fetch : String → Bool) (l : List String) :
    filter_image_url fetch l =
      if l.filter fetch = [] then none else some (l.filter fetch) :=
  filter_image_url_eq fetch l

/-- C7: `filter_image_url` is idempotent on its own output — filtering an
already-filtered list returns the same list. -/
theorem filter_image_url_idem (fetch : String → Bool) (l l' : List String)
    (h : filter_image_url fetch l = some l') :
    filter_image_url fetch l' = some l' := by
  rw [filter_image_url_eq] at h
  by_cases hnil : l.filter fetch = []
  · simp [hnil] at h
  · simp only [hnil, if_false, Option.some.injEq] at h
    subst h
    rw [filter_image_url_eq]
    have hself : (l.filter fetch).filter fetch = l.filter fetch :=
      List.filter_eq_self.mpr (fun a ha => (List.mem_filter.mp ha).2)
    simp [hself, hnil]

/-- Witness for C7 at a concrete input. -/
theorem filter_image_url_idem_witness :
    filter_image_url (fun _ => true) ["A"] = some ["A"] ∧
      filter_image_url (fun _ => true) ["A"] = some ["A"] :=
  ⟨rfl, filter_image_url_idem (fun _ => true) ["A"] ["A"] rfl⟩

/-! ## Claims about `pick_img` -/

/-- C5: whenever `pick_img` returns a URL, that URL is a member of the
filtered candidate list derived from its input `img_list`; it never
returns a value outside that list, for any language-model response. -/
theorem pick_img_mem_filtered (fetch : String → Bool) (response : String)
    (img_list : List String) (u : String)
    (h : pick_img fetch response img_list = .ok (some u)) :
    u ∈ img_list.filter fetch := by
  unfold pick_img at h
  rw [filter_image_url_eq] at h
  by_cases hnil : img_list.filter fetch = []
  · simp [hnil] at h
  · simp only [hnil, if_false] at h
    cases hparse : literalEvalInt (stripSquare response) with
    | none => rw [hparse] at h; simp at h
    | some answer =>
        rw [hparse] at h
        by_cases hlt : answer < (List.length (img_list.filter fetch) : Int)
        · simp only [hlt, if_true] at h
          cases hidx : pyIndex (img_list.filter fetch) (answer - 1) with
          | error e => rw [hidx] at h; simp [Except.map] at h
          | ok v =>
              rw [hidx] at h
              simp only [Except.map, Except.ok.injEq, Option.some.injEq] at h
              exact h ▸ pyIndex_mem _ _ _ hidx
        · simp [hlt] at h

/-- Witness for C5 at a concrete input: response `[2]` against three
fetchable candidates picks `B`, which is in the filtered list. -/
theorem pick_img_mem_filtered_witness :
    pick_img (fun _ => true) "[2]" ["A", "B", "C"] = .ok (some "B") ∧
      "B" ∈ (["A", "B", "C"].filter (fun _ => true)) :=
  ⟨rfl, pick_img_mem_filtered (fun _ => true) "[2]" ["A", "B", "C"] "B" rfl⟩

/-- C1 (failing input): the response `[3]` is a valid 1-based index into
the three surviving candidates, so the claim (and the source's own
bracketed-index protocol) requires the third URL; the guard
`answer < len(img_list)` rejects `3` and the code returns `None`. -/
theorem pick_img_rejects_last_valid_index :
    pick_img (fun _ => true) "[3]" ["A", "B", "C"] = .ok none ∧
      (.ok none : Except Unit (Option String)) ≠ .ok (some "C") :=
  ⟨rfl, by simp⟩

/-- C10: with at least one surviving candidate, the response `[0]` — not a
valid 1-based index — passes the `answer < len(img_list)` guard, and
`img_list[answer-1]` wraps to position `-1`: `pick_img` returns the *last*
surviving URL, not `None`. -/
theorem pick_img_zero_wraps_to_last (fetch : String → Bool)
    (img_list : List String) (hne : img_list.filter fetch ≠ []) :
    pick_img fetch "[0]" img_list = .ok (some ((img_list.filter fetch).getLast hne)) := by
  unfold pick_img
  rw [filter_image_url_eq]
  simp only [hne, if_false]
  have hparse : literalEvalInt (stripSquare "[0]") = some 0 := rfl
  rw [hparse]
  have hpos : 0 < (img_list.filter fetch).length := List.length_pos.mpr hne
  have hlt : (0 : Int) < ((img_list.filter fetch).length : Int) := by exact_mod_cast hpos
  have hzero : (0 : Int) - 1 = -1 := by omega
  simp only [hlt, if_true, hzero, pyIndex_neg_one (img_list.filter fetch) hne]
  rfl

/-- Witness for C10 at a concrete input: three fetchable candidates and
response `[0]` yield the last candidate `C`. -/
theorem pick_img_zero_wraps_to_last_witness :
    (["A", "B", "C"].filter (fun _ => true) ≠ []) ∧
      pick_img (fun _ => true) "[0]" ["A", "B", "C"] =
        .ok (some ((["A", "B", "C"].filter (fun _ => true)).getLast (by simp))) :=
  ⟨by simp, pick_img_zero_wraps_to_last (fun _ => true) ["A", "B", "C"] (by simp)⟩

/-! ## Claims about `get_asin_list` -/

/-- C2 (failing input): a single (non-list) retrieval result reaches the
final `else` branch of `get_asin_list` — the `elif` guard tests for `str`,
and even a `str` would raise on `['location']` subscripting — so the
function returns `None`, not the one-element identifier sequence the
design requires. -/
theorem get_asin_list_single_returns_none :
    get_asin_list (SearchInput.single ⟨⟨⟨"s3://b/B000123.txt"⟩⟩⟩) = .ok none ∧
      (.ok none : Except Unit (Option (List String))) ≠ .ok (some ["B000123"]) :=
  ⟨rfl, by simp⟩

/-! ## Claims about `refine_query` -/

theorem refineHistoryUpdate_length_le (q : String) (qh : Option (List String)) :
    (refineHistoryUpdate q qh).length ≤ 3 := by
  unfold refineHistoryUpdate
  by_cases ht : historyTruthy qh
  · simp only [ht, if_true, List.length_take]
    exact min_le_left _ _
  · simp [ht]

theorem refineHistoryUpdate_head (q : String) (qh : Option (List String)) :
    (refineHistoryUpdate q qh).head? = some q := by
  unfold refineHistoryUpdate
  by_cases ht : historyTruthy qh
  · simp [ht, List.take_succ_cons]
  · simp [ht]

/-- C3: whatever the user text, input history (absent, empty, or any
length) and selected product, when `refine_query` returns, the updated
history has length at most 3 and its first element is the cleaned refined
query returned as the first component. -/
theorem refine_query_history_bound (fetch : String → Bool) (llm txt : String)
    (qh : Option (List String)) (prod : Option Product)
    (q : String) (hist : List String)
    (h : refine_query fetch llm txt qh prod = .ok (q, hist)) :
    hist.length ≤ 3 ∧ hist.head? = some q := by
  unfold refine_query at h
  cases prod with
  | none =>
      simp only [Except.ok.injEq, Prod.mk.injEq] at h
      obtain ⟨hq, hh⟩ := h
      subst hq; subst hh
      exact ⟨refineHistoryUpdate_length_le _ _, refineHistoryUpdate_head _ _⟩
  | some p =>
      by_cases hf : fetch p.image
      · simp only [hf, if_true, Except.ok.injEq, Prod.mk.injEq] at h
        obtain ⟨hq, hh⟩ := h
        subst hq; subst hh
        exact ⟨refineHistoryUpdate_length_le _ _, refineHistoryUpdate_head _ _⟩
      · simp [hf] at h

/-- Witness for C3 at a concrete input: a three-entry history and a
present product whose image fetch succeeds. -/
theorem refine_query_history_bound_witness :
    refine_query (fun _ => true) "q" "x" (some ["a", "b", "c"])
        (some ⟨"i", "t", "u"⟩) = .ok ("q", ["q", "a", "b"]) ∧
      (["q", "a", "b"] : List String).length ≤ 3 ∧
        (["q", "a", "b"] : List String).head? = some "q" :=
  ⟨rfl, refine_query_history_bound (fun _ => true) "q" "x" (some ["a", "b", "c"])
    (some ⟨"i", "t", "u"⟩) "q" ["q", "a", "b"] rfl⟩

/-! ## Claims about the catalog-lookup sanitiser -/

theorem subNonWordRuns_eq_filter :
    ∀ l : List Char, subNonWordRuns l = l.filter isWordChar := by
  intro l
  induction l with
  | nil => rfl
  | cons c rest ih =>
      by_cases hw : isWordChar c
      · simp [subNonWordRuns, hw, List.filter_cons, ih]
      · simp [subNonWordRuns, hw, List.filter_cons, ih]

/-- C8 (counterexample): `re.sub(r'\W+', '', asin)` keeps underscores —
`\W` is the complement of `[a-zA-Z0-9_]` — so for the input `"A_B"` the
identifier actually used still contains `_`, which is not alphanumeric,
contradicting the claim that every non-alphanumeric character is removed. -/
theorem sanitizeAsin_underscore_counterexample :
    sanitizeAsin "A_B" = "A_B" ∧
      ¬ (sanitizeAsin "A_B").data.all Char.isAlphanum = true :=
  ⟨rfl, by decide⟩

/-- C8 (amended): the identifier used by the lookup is the input with
every non-word character removed (word = alphanumeric or underscore):
the result contains only word characters, is an order-preserving
subsequence of the input, and an all-word-character input is unchanged. -/
theorem sanitizeAsin_word_chars (s : String) :
    (sanitizeAsin s).data.all isWordChar = true ∧
      (sanitizeAsin s).data.Sublist s.data := by
  constructor
  · rw [List.all_eq_true]
    intro c hc
    rw [sanitizeAsin, subNonWordRuns_eq_filter] at hc
    exact (List.mem_filter.mp hc).2
  · rw [sanitizeAsin, subNonWordRuns_eq_filter]
    exact List.filter_sublist _

/-! ## The frame claim for `refine_query` -/

/-- C9: the history-update steps of `refine_query`, run on the list store:
a caller-owned history list at any allocated address `a` is unchanged by
the call, the returned history lives at a freshly allocated address, and
its value is the pure `refineHistoryUpdate` of the stored history.  The
pipeline keeps no other state: `refine_query` itself is a function of its
arguments alone. -/
theorem updateHistoryStore_no_mutation (σ : ListStore) (q : String) (a : Nat)
    (ha : a < σ.next) :
    (updateHistoryStore σ q a).1.heap a = σ.heap a ∧
      ¬ (updateHistoryStore σ q a).2 < σ.next ∧
      (updateHistoryStore σ q a).1.heap (updateHistoryStore σ q a).2 =
        refineHistoryUpdate q (some (σ.heap a)) := by
  unfold updateHistoryStore refineHistoryUpdate historyTruthy
  have hne : a ≠ σ.next := Nat.ne_of_lt ha
  by_cases he : (σ.heap a).isEmpty
  · simp [ListStore.alloc, he, hne]
  · simp only [he, if_false, ListStore.slice3, ListStore.concatNew, ListStore.alloc]
    refine ⟨?_, ?_, ?_⟩
    · have hne1 : a ≠ σ.next + 1 := by omega
      simp [hne, hne1]
    · simp
    · simp [hne, Bool.not_eq_true] at he ⊢

/-- Witness for C9 at a concrete store: one allocated history `["x"]` at
address 0. -/
theorem updateHistoryStore_no_mutation_witness :
    (0 < (1 : Nat)) ∧
      ((updateHistoryStore ⟨1, fun a => if a = 0 then ["x"] else []⟩ "y" 0).1.heap 0 =
          (fun a => if a = 0 then ["x"] else ([] : List String)) 0 ∧
        ¬ (updateHistoryStore ⟨1, fun a => if a = 0 then ["x"] else []⟩ "y" 0).2 < 1 ∧
        (updateHistoryStore ⟨1, fun a => if a = 0 then ["x"] else []⟩ "y" 0).1.heap
            (updateHistoryStore ⟨1, fun a => if a = 0 then ["x"] else []⟩ "y" 0).2 =
          refineHistoryUpdate "y" (some ((fun a => if a = 0 then ["x"] else []) 0))) :=
  ⟨by decide,
    updateHistoryStore_no_mutation ⟨1, fun a => if a = 0 then ["x"] else []⟩ "y" 0 (by decide)⟩

/-! ## Identifier derivation: `pySplit` characterisation -/

theorem takeWhile_concat_neg {α} (P : α → Bool) (y : α) (hy : P y = false) :
    ∀ xs : List α, (xs ++ [y]).takeWhile P = xs.takeWhile P := by
  intro xs
  induction xs with
  | nil => simp [List.takeWhile_cons, hy]
  | cons x t ih =>
      by_cases hx : P x
      · simp [List.takeWhile_cons, hx, ih]
      · simp [List.takeWhile_cons, hx]

theorem takeWhile_concat_pos {α} (P : α → Bool) (y : α) (hy : P y = true) :
    ∀ xs : List α, xs.all P = true → (xs ++ [y]).takeWhile P = xs ++ [y] := by
  intro xs
  induction xs with
  | nil => intro _; simp [List.takeWhile_cons, hy]
  | cons x t ih =>
      intro hall
      simp only [List.all_cons, Bool.and_eq_true] at hall
      simp [List.takeWhile_cons, hall.1, ih hall.2]

theorem takeWhile_concat_stop {α} (P : α → Bool) (y : α) :
    ∀ xs : List α, xs.all P = false → (xs ++ [y]).takeWhile P = xs.takeWhile P := by
  intro xs
  induction xs with
  | nil => intro h; simp at h
  | cons x t ih =>
      intro hall
      simp only [List.all_cons] at hall
      by_cases hx : P x
      · simp only [hx, Bool.true_and] at hall
        simp [List.takeWhile_cons, hx, ih hall]
      · simp [List.takeWhile_cons, hx]

theorem getLastD_indep {α} (l : List α) (a b : α) (h : l ≠ []) :
    l.getLastD a = l.getLastD b := by
  cases l with
  | nil => exact absurd rfl h
  | cons x t =>
      rw [List.getLastD_eq_getLast?, List.getLastD_eq_getLast?,
        List.getLast?_eq_getLast (x :: t) h]
      rfl

theorem pySplit_ne_nil (sep : Char) : ∀ l : List Char, pySplit sep l ≠ [] := by
  intro l
  cases l with
  | nil => simp [pySplit]
  | cons c rest =>
      by_cases hc : c == sep
      · simp [pySplit, hc]
      · simp [pySplit, hc]

/-- The first piece of a Python single-character split is the prefix
before the first separator. -/
theorem pySplit_headD (sep : Char) :
    ∀ l : List Char, (pySplit sep l).headD [] = l.takeWhile (fun c => !(c == sep)) := by
  intro l
  induction l with
  | nil => rfl
  | cons c rest ih =>
      rw [show pySplit sep (c :: rest) =
            (if c == sep then [] :: pySplit sep rest
             else (c :: (pySplit sep rest).headD []) :: (pySplit sep rest).tail) from rfl]
      by_cases hc : c == sep
      · rw [if_pos hc, List.headD_cons, List.takeWhile_cons]
        simp [hc]
      · rw [if_neg hc, List.headD_cons, List.takeWhile_cons,
          if_pos (by simp [hc] : (!(c == sep)) = true), ih]

theorem pySplit_of_all (sep : Char) :
    ∀ l : List Char, l.all (fun c => !(c == sep)) = true → pySplit sep l = [l] := by
  intro l
  induction l with
  | nil => intro _; rfl
  | cons c rest ih =>
      intro hall
      simp only [List.all_cons, Bool.and_eq_true, Bool.not_eq_true'] at hall
      rw [show pySplit sep (c :: rest) =
            (if c == sep then [] :: pySplit sep rest
             else (c :: (pySplit sep rest).headD []) :: (pySplit sep rest).tail) from rfl]
      rw [if_neg (by simp [hall.1]), ih (by simpa using hall.2)]
      rfl

theorem pySplit_length_one (sep : Char) :
    ∀ l : List Char, (pySplit sep l).length = 1 → l.all (fun c => !(c == sep)) = true := by
  intro l
  induction l with
  | nil => intro _; rfl
  | cons c rest ih =>
      intro hlen
      rw [show pySplit sep (c :: rest) =
            (if c == sep then [] :: pySplit sep rest
             else (c :: (pySplit sep rest).headD []) :: (pySplit sep rest).tail) from rfl] at hlen
      by_cases hc : c == sep
      · rw [if_pos hc] at hlen
        simp only [List.length_cons, Nat.add_eq_one_iff] at hlen
        rcases hlen with ⟨h0, _⟩ | ⟨h0, _⟩
        all_goals
          first
          | exact absurd (List.length_eq_zero.mp h0) (pySplit_ne_nil sep rest)
          | omega
      · rw [if_neg hc] at hlen
        simp only [List.length_cons] at hlen
        have hrlen : (pySplit sep rest).length = 1 := by
          cases hr : pySplit sep rest with
          | nil => exact absurd hr (pySplit_ne_nil sep rest)
          | cons x t =>
              rw [hr] at hlen
              simp only [List.tail_cons] at hlen
              simp [show t = [] from List.length_eq_zero.mp (by omega)]
        have hall := ih hrlen
        simp [List.all_cons, hall, hc]

/-- The last piece of a Python single-character split is the suffix after
the last separator. -/
theorem pySplit_getLastD (sep : Char) :
    ∀ l : List Char, (pySplit sep l).getLastD [] =
      (l.reverse.takeWhile (fun c => !(c == sep))).reverse := by
  intro l
  induction l with
  | nil => rfl
  | cons c rest ih =>
      rw [show pySplit sep (c :: rest) =
            (if c == sep then [] :: pySplit sep rest
             else (c :: (pySplit sep rest).headD []) :: (pySplit sep rest).tail) from rfl,
        List.reverse_cons]
      by_cases hc : c == sep
      · rw [if_pos hc, List.getLastD_cons,
          takeWhile_concat_neg _ c (by simp [hc]) rest.reverse,
          getLastD_indep _ _ [] (pySplit_ne_nil sep rest), ih]
      · rw [if_neg hc]
        by_cases hall : rest.all (fun x => !(x == sep)) = true
        · rw [pySplit_of_all sep rest hall]
          rw [takeWhile_concat_pos _ c (by simp [hc]) rest.reverse
            (by rw [List.all_reverse]; exact hall)]
          simp
        · cases hr : pySplit sep rest with
          | nil => exact absurd hr (pySplit_ne_nil sep rest)
          | cons x t =>
              cases t with
              | nil =>
                  exact absurd (pySplit_length_one sep rest (by rw [hr]; rfl)) hall
              | cons y t2 =>
                  rw [takeWhile_concat_stop _ c rest.reverse
                    (by rw [List.all_reverse]; exact Bool.eq_false_iff.mpr hall), ← ih, hr]
                  rw [List.headD_cons, List.tail_cons, List.getLastD_cons]
                  conv_rhs => rw [List.getLastD_cons]
                  exact getLastD_indep (y :: t2) _ x (by simp)

/-! ## Claims about identifier derivation -/

/-- The basename of a path: the suffix after the last `/`. -/
def pyBasename (uri : String) : List Char :=
  (uri.data.reverse.takeWhile (fun c => !(c == '/'))).reverse

/-- The spec's identifier derivation, as written: the basename with
exactly the last file extension stripped (everything from the *last* dot
on removed; unchanged when there is no dot). -/
def stemStripLastExt (uri : String) : String :=
  if (pyBasename uri).contains '.' then
    String.mk (((pyBasename uri).reverse.dropWhile (fun c => !(c == '.'))).tail.reverse)
  else String.mk (pyBasename uri)

/-- The amended identifier derivation: the portion of the basename before
the *first* dot. -/
def stemFirstDot (uri : String) : String :=
  String.mk ((pyBasename uri).takeWhile (fun c => !(c == '.')))

/-- C4 (counterexample): for the URI path basename `B000.v2.txt`, the
source computes `split('.')[0] = "B000"`, whereas stripping exactly the
last extension as the spec states would give `B000.v2`. -/
theorem asinOfUri_multi_dot_counterexample :
    asinOfUri "s3://bucket/items/B000.v2.txt" = "B000" ∧
      stemStripLastExt "s3://bucket/items/B000.v2.txt" = "B000.v2" ∧
      asinOfUri "s3://bucket/items/B000.v2.txt" ≠
        stemStripLastExt "s3://bucket/items/B000.v2.txt" :=
  ⟨rfl, rfl, by decide⟩

/-- C4 (amended): for every retrieval result URI, the extracted identifier
is the basename (suffix after the last `/`) truncated at the *first* dot —
all directory components stripped and everything from the first dot
onwards removed. -/
theorem asinOfUri_eq_first_dot_stem (uri : String) :
    asinOfUri uri = stemFirstDot uri := by
  unfold asinOfUri stemFirstDot pyBasename
  rw [pySplit_getLastD, pySplit_headD]

end RetailAssistant
